import Mathlib

/-!
# chardev/char-string.c : the string character device

A shallow embedding of `src/chardev/char-string.c` and the properties of its
four operations (`string_chr_write`, `string_chr_sync_read`,
`qemu_chr_open_string`, `qemu_chr_parse_string`).

Conventions of the embedding

* a byte is a `Nat`; bytes are only copied and compared with NUL, never
  computed with;
* C `int` is an `Int` together with the range `INT_MIN .. INT_MAX`, `size_t`
  is a `Nat` taken modulo `2 ^ 64` where a conversion happens (LP64 host);
* a `char *` is a `CharPtr`: the bytes of the allocation it points into and an
  offset; a nullable pointer is an `Option`;
* an operation whose C execution would be undefined (NULL dereference, a copy
  or a pointer move that leaves the source allocation) returns `none`;
* the sink behind descriptor 2 (`stderr`) is a state of an arbitrary type
  with two operations, the system call `write` and the trace line
  `fprintf (stderr, ...)`; `string_chr_write`, which returns the state of the
  sink, performs both; `string_chr_sync_read` returns the count, the buffer
  and the device only, and its trace line is accounted for where a sink is
  threaded through a sequence of calls (`step`);
* the sequential definitions do not model the mutex of the generic `Chardev`
  part; the interleaving of several callers, with the owner of the lock as
  state, is the last part of the development.
-/

namespace CharString

/-! ## Machine integers -/

/-- Largest value of a C `int`. -/
def INT_MAX : Int := 2 ^ 31 - 1

/-- Smallest value of a C `int`. -/
def INT_MIN : Int := -(2 ^ 31)

/-- Conversion `int -> size_t` (value modulo `2 ^ 64`), as done by the usual
arithmetic conversions in `len > remaining_len` and at the call of `memcpy`. -/
def size_t_of_int (i : Int) : Nat := (i % 2 ^ 64).toNat

/-- Conversion `size_t -> int` of the assignment `len = remaining_len`
(two's complement wrap to 32 bits). -/
def int_of_size_t (n : Nat) : Int :=
  if n % 2 ^ 32 < 2 ^ 31 then ((n % 2 ^ 32 : Nat) : Int)
  else ((n % 2 ^ 32 : Nat) : Int) - 2 ^ 32

/-- Conversion `ssize_t -> int` of the assignment `len = write (...)`
(two's complement wrap to 32 bits). -/
def int_of_ssize_t (i : Int) : Int :=
  if i % 2 ^ 32 < 2 ^ 31 then i % 2 ^ 32 else i % 2 ^ 32 - 2 ^ 32

/-! ## C strings -/

/-- A `char *`: `mem` holds the bytes of the allocation pointed into, without
the NUL that closes it (that terminator is implicit, right after the last
byte of `mem`); `off` is the offset of the pointer in the allocation. -/
structure CharPtr where
  mem : List Nat
  off : Nat
deriving DecidableEq, Repr

/-- The C string a pointer denotes: the bytes from the pointer up to, and not
including, the first NUL. -/
def cstr (p : CharPtr) : List Nat :=
  (p.mem.drop p.off).takeWhile (fun b => b != 0)

/-- The libc `strlen`: number of bytes before the first NUL. -/
def strlen (p : CharPtr) : Nat := (cstr p).length

/-- The libc `strdup`: a fresh allocation holding a copy of the C string
(allocation is taken to succeed). -/
def strdup (p : CharPtr) : CharPtr := ⟨cstr p, 0⟩

/-- The libc `memcpy (dst, src, n)`: the first `n` bytes of the memory at
`dst` are replaced by the `n` bytes at `src`. The source range has to lie in
the source allocation (terminator included), otherwise the copy is undefined.
`dst` is the memory from the destination pointer on; its extent is the
caller's business and is not checked. -/
def memcpy (dst : List Nat) (src : CharPtr) (n : Nat) : Option (List Nat) :=
  if src.off + n ≤ src.mem.length + 1 then
    some (((src.mem ++ [0]).drop src.off).take n ++ dst.drop n)
  else none

/-- Pointer arithmetic `p + i` with `i` an `int`: defined while the result
stays inside the allocation or one past its terminator. -/
def ptr_add (p : CharPtr) (i : Int) : Option CharPtr :=
  if 0 ≤ (p.off : Int) + i ∧ (p.off : Int) + i ≤ (p.mem.length : Int) + 1 then
    some ⟨p.mem, ((p.off : Int) + i).toNat⟩
  else none

/-! ## Device state -/

/-- The `StringChardev` record. The generic `parent` part (which only carries
the lock here) and the `outputdev` pointer (never read nor written by this
file) are left out. -/
structure StringChardev where
  text : Option CharPtr
  cur : Option CharPtr
deriving DecidableEq, Repr

/-- The function `string_chr_write`. The two operations on the sink are
parameters. The system call `write`: given the state of the sink, the
descriptor, the memory at `buf` and the count, it yields the `ssize_t` result
and the next state of the sink. The trace line `fprintf (stderr, ...)`: given
the state of the sink, the format, the value of `__func__` and the `int`
arguments, it yields the next state of the sink. -/
def string_chr_write {σ : Type} (write : σ → Nat → List Nat → Nat → Int × σ)
    (fprintf : σ → String → String → List Int → σ)
    (w : σ) (chr : StringChardev) (buf : List Nat) (len : Int) :
    Int × σ × StringChardev :=
  let orig_len := len
  let r := write w 2 buf (size_t_of_int len)
  let len := int_of_ssize_t r.1
  let w := fprintf r.2 "%s: %d gives %d\n" "string_chr_write" [orig_len, len]
  (len, w, chr)

/-- The function `string_chr_sync_read`: returned count, memory at `buf`
afterwards, device afterwards. -/
def string_chr_sync_read (chr : StringChardev) (buf : List Nat) (len : Int) :
    Option (Int × List Nat × StringChardev) :=
  match chr.cur with
  | none => none
  | some cur =>
    let remaining_len : Nat := strlen cur
    let len : Int :=
      if size_t_of_int len > remaining_len then int_of_size_t remaining_len else len
    match memcpy buf cur (size_t_of_int len), ptr_add cur len with
    | some buf', some cur' => some (len, buf', { chr with cur := some cur' })
    | _, _ => none

/-! ## Configuration and open -/

/-- Modelled from the spec: the QAPI-generated enumeration of backend kinds is
not part of the sources. Only the string kind is named by this file; every
other kind (the zero value of a fresh descriptor among them) is an `other`. -/
inductive ChardevBackendKind where
  | CHARDEV_BACKEND_KIND_STRING
  | other (tag : Nat)
deriving DecidableEq, Repr

/-- Modelled from the spec: the QAPI-generated declaration of `ChardevString`
is not part of the sources. The record has the members this file touches: the
common part `base` (of a type `Common` declared elsewhere), the required
`text`, and the optional `outputdev` with its presence flag. -/
structure ChardevString (Common : Type) where
  base : Common
  text : Option CharPtr
  has_outputdev : Bool
  outputdev : Option CharPtr
deriving DecidableEq, Repr

/-- The member `string` of the union `u`: a pointer `data` to the record. -/
structure ChardevStringWrapper (Common : Type) where
  data : Option (ChardevString Common)
deriving DecidableEq, Repr

/-- The union `u` of a backend descriptor, reduced to its `string` member. -/
structure ChardevBackendU (Common : Type) where
  string : ChardevStringWrapper Common
deriving DecidableEq, Repr

/-- Modelled from the spec: the QAPI-generated declaration of `ChardevBackend`
is not part of the sources. The descriptor has its kind `type` and the union
`u`. -/
structure ChardevBackend (Common : Type) where
  type : ChardevBackendKind
  u : ChardevBackendU Common
deriving DecidableEq, Repr

/-- The collaborators of `qemu_chr_parse_string` that are declared outside
this file, for an option set of type `QemuOpts`: the lookup `qemu_opt_get`
(NULL when the option is absent), `qemu_chr_parse_common`, which fills the
common part of a record from the options, and the all-zero common part that
`g_new0` produces. -/
structure Host (QemuOpts Common : Type) where
  qemu_opt_get : QemuOpts → String → Option CharPtr
  qemu_chr_parse_common : QemuOpts → Common → Common
  zero : Common

/-- The function `qemu_chr_parse_string`: the descriptor afterwards and the
error stored through `errp` (`none` when no error is set; `errp` is clear on
entry, as `error_setg` requires). In the C code `string` points to the record
that is attached to the descriptor in the first statement, so every later
store to `string` is a store to the attached record; here the record is a
value and is attached again where the function returns. -/
def qemu_chr_parse_string {QemuOpts Common : Type} (h : Host QemuOpts Common)
    (opts : QemuOpts) (backend : ChardevBackend Common) :
    ChardevBackend Common × Option String :=
  let string : ChardevString Common := ⟨h.zero, none, false, none⟩
  let backend := { backend with u := ⟨⟨some string⟩⟩ }
  let backend := { backend with type := ChardevBackendKind.CHARDEV_BACKEND_KIND_STRING }
  let string := { string with base := h.qemu_chr_parse_common opts string.base }
  match h.qemu_opt_get opts "text" with
  | some option =>
    let string := { string with text := some (strdup option) }
    match h.qemu_opt_get opts "outputdev" with
    | some option =>
      let string := { string with has_outputdev := true }
      let string := { string with outputdev := some (strdup option) }
      ({ backend with u := ⟨⟨some string⟩⟩ }, none)
    | none => ({ backend with u := ⟨⟨some string⟩⟩ }, none)
  | none =>
    ({ backend with u := ⟨⟨some string⟩⟩ },
      some "chardev: No text given for string chardev")

/-- The function `qemu_chr_open_string`: device afterwards, the flag written
through the out-parameter `be_opened`, and the error behind `errp`, which the
function never touches. Dereferencing a NULL `backend->u.string.data` is
undefined. -/
def qemu_chr_open_string {Common : Type} (chr : StringChardev)
    (backend : ChardevBackend Common) (errp : Option String) :
    Option (StringChardev × Bool × Option String) :=
  match backend.u.string.data with
  | none => none
  | some cds =>
    let stcd := { chr with text := cds.text }
    let stcd := { stcd with cur := stcd.text }
    let be_opened := true
    some (stcd, be_opened, errp)

/-! ## Vocabulary of the properties -/

/-- The device holds the source text `t` (a pointer inside its allocation) and
its cursor stands `c` bytes after the start of the text, `c` at most the
length of the text. -/
def Opened (s : StringChardev) (t : CharPtr) (c : Nat) : Prop :=
  s.text = some t ∧ s.cur = some ⟨t.mem, t.off + c⟩ ∧
    t.off ≤ t.mem.length ∧ c ≤ strlen t

instance (s : StringChardev) (t : CharPtr) (c : Nat) : Decidable (Opened s t c) := by
  unfold Opened; infer_instance

/-- The cursor offset: distance of `cur` from `text` (zero when a pointer is
NULL). -/
def cursor_offset (s : StringChardev) : Int :=
  match s.text, s.cur with
  | some t, some c => (c.off : Int) - (t.off : Int)
  | _, _ => 0

/-- A caller that issues the reads `sizes` one after the other, each into a
fresh zeroed buffer of the requested size, and keeps from each buffer the
bytes that the call reported. -/
def read_seq (chr : StringChardev) : List Int → Option (List (List Nat) × StringChardev)
  | [] => some ([], chr)
  | n :: ns =>
    match string_chr_sync_read chr (List.replicate n.toNat 0) n with
    | none => none
    | some (r, buf, chr') =>
      match read_seq chr' ns with
      | none => none
      | some (outs, last) => some (buf.take r.toNat :: outs, last)

/-- A call of one of the two I/O entry points. -/
inductive Call where
  | Write (buf : List Nat) (len : Int)
  | SyncRead (buf : List Nat) (len : Int)
deriving DecidableEq, Repr

/-- The calls the properties range over: a `SyncRead` has a `len` of type
`int` that is not negative; a `Write` has a `len` of type `int`. -/
def Call.ok : Call → Prop
  | Call.Write _ len => INT_MIN ≤ len ∧ len ≤ INT_MAX
  | Call.SyncRead _ len => 0 ≤ len ∧ len ≤ INT_MAX

instance (c : Call) : Decidable c.ok := by
  cases c <;> unfold Call.ok <;> infer_instance

/-- One call on a device and a sink. The trace line that
`string_chr_sync_read` prints before it returns goes to the same sink and is
applied here. -/
def step {σ : Type} (write : σ → Nat → List Nat → Nat → Int × σ)
    (fprintf : σ → String → String → List Int → σ)
    (st : σ × StringChardev) : Call → Option (σ × StringChardev)
  | Call.Write buf len =>
    let r := string_chr_write write fprintf st.1 st.2 buf len
    some (r.2.1, r.2.2)
  | Call.SyncRead buf len =>
    match string_chr_sync_read st.2 buf len with
    | none => none
    | some r =>
      some (fprintf st.1 "%s: Giving %d bytes\n" "string_chr_sync_read" [r.1], r.2.2)

/-- A sequence of calls, from left to right. -/
def run {σ : Type} (write : σ → Nat → List Nat → Nat → Int × σ)
    (fprintf : σ → String → String → List Int → σ)
    (st : σ × StringChardev) : List Call → Option (σ × StringChardev)
  | [] => some st
  | c :: cs =>
    match step write fprintf st c with
    | none => none
    | some st' => run write fprintf st' cs

/-- The states reachable from `init` by calls of `Write` and `SyncRead` that
return. -/
inductive Reachable {σ : Type} (write : σ → Nat → List Nat → Nat → Int × σ)
    (fprintf : σ → String → String → List Int → σ)
    (init : σ × StringChardev) : σ × StringChardev → Prop where
  | start : Reachable write fprintf init init
  | call (st st' : σ × StringChardev) (c : Call) :
      Reachable write fprintf init st → c.ok → step write fprintf st c = some st' →
      Reachable write fprintf init st'

/-! ## Sample data -/

/-- The text `hello` at the start of its allocation. -/
def hello : CharPtr := ⟨[104, 101, 108, 108, 111], 0⟩

/-- A device opened on `hello`, cursor at the start. -/
def hello_dev : StringChardev := ⟨some hello, some hello⟩

/-- A device opened on `hello` whose cursor stands after `he`. -/
def hello_dev2 : StringChardev := ⟨some hello, some ⟨hello.mem, 2⟩⟩

/-- A device opened on `hello` that has been read to the end. -/
def hello_end : StringChardev := ⟨some hello, some ⟨hello.mem, 5⟩⟩

/-- A sample host: an option set is an association list of names and values,
the common part of a record carries nothing. -/
def sample_host : Host (List (String × CharPtr)) Unit :=
  ⟨fun opts name => opts.lookup name, fun _ c => c, ()⟩

/-- A descriptor as freshly allocated: no kind of interest, no record. -/
def fresh_backend : ChardevBackend Unit :=
  ⟨ChardevBackendKind.other 0, ⟨⟨none⟩⟩⟩

/-- The string record configured with the text `hello`. -/
def hello_cds : ChardevString Unit := ⟨(), some hello, false, none⟩

/-- A descriptor configured with the text `hello`. -/
def hello_backend : ChardevBackend Unit :=
  ⟨ChardevBackendKind.CHARDEV_BACKEND_KIND_STRING, ⟨⟨some hello_cds⟩⟩⟩

/-- What the sample sink has received: the bytes it accepted from a `write`
request, or a trace line (the value of `__func__` and the `int` arguments). -/
inductive SinkEvent where
  | data (bytes : List Nat)
  | trace (func : String) (args : List Int)
deriving DecidableEq, Repr

/-- A sample sink: it keeps what it receives and accepts at most 3 bytes of
each `write` request. -/
def sample_write (w : List SinkEvent) (_fd : Nat) (buf : List Nat) (count : Nat) :
    Int × List SinkEvent :=
  (((min count 3 : Nat) : Int), w ++ [SinkEvent.data (buf.take (min count 3))])

/-- The sample sink, trace lines. -/
def sample_fprintf (w : List SinkEvent) (_format : String) (func : String)
    (args : List Int) : List SinkEvent :=
  w ++ [SinkEvent.trace func args]

/-- The bytes of `ping`. -/
def ping : List Nat := [112, 105, 110, 103]

/-- The option value `out0`. -/
def out0 : CharPtr := ⟨[111, 117, 116, 48], 0⟩

/-- An option set with a `text` and an `outputdev`. -/
def opts_both : List (String × CharPtr) := [("text", hello), ("outputdev", out0)]

/-- An option set with a `text` only. -/
def opts_text : List (String × CharPtr) := [("text", hello)]

/-- An option set without `text`. -/
def opts_none : List (String × CharPtr) := [("outputdev", out0)]

/-! ## Several callers of `string_chr_sync_read` -/

/-- Where a caller stands in `string_chr_sync_read`: before the line of that
number (62 lock, 63 `strlen`, 65 clamp, 68 `memcpy`, 69 advance, 71 unlock,
72 trace line, 73 return), or returned. -/
inductive Pc where
  | l62 | l63 | l65 | l68 | l69 | l71 | l72 | l73 | done
deriving DecidableEq, Repr

/-- One activation of `string_chr_sync_read`: its position and its locals
(`buf` is the memory at the caller's buffer, private to the caller). -/
structure Caller where
  pc : Pc
  buf : List Nat
  len : Int
  remaining_len : Nat
deriving DecidableEq, Repr

/-- What a call hands back: which caller, the count, and the bytes of its
buffer that the count covers. -/
structure Chunk where
  tid : Nat
  count : Int
  bytes : List Nat
deriving DecidableEq, Repr

/-- The device shared by the callers. `chr_write_lock` is the owner of the
mutex, if any. `served` and `returned` are records kept for the properties,
not data of the program: the chunks in the order in which the cursor was
advanced for them (line 69, inside the lock), and in the order in which the
calls returned (line 73, after the lock is released). -/
structure Conc where
  chr : StringChardev
  chr_write_lock : Option Nat
  callers : List Caller
  served : List Chunk
  returned : List Chunk
deriving DecidableEq, Repr

/-- Caller `i` executes its next line. A caller that waits for the lock, has
returned, or does not exist leaves the state as it is; `none` is an undefined
execution. -/
def cstep (st : Conc) (i : Nat) : Option Conc :=
  match st.callers[i]? with
  | none => some st
  | some th =>
    match th.pc with
    | Pc.l62 =>
      match st.chr_write_lock with
      | none =>
        let th' : Caller := { th with pc := Pc.l63 }
        some { st with chr_write_lock := some i, callers := st.callers.set i th' }
      | some _ => some st
    | Pc.l63 =>
      match st.chr.cur with
      | none => none
      | some cur =>
        let th' : Caller := { th with remaining_len := strlen cur, pc := Pc.l65 }
        some { st with callers := st.callers.set i th' }
    | Pc.l65 =>
      let len : Int :=
        if size_t_of_int th.len > th.remaining_len then int_of_size_t th.remaining_len
        else th.len
      let th' : Caller := { th with len := len, pc := Pc.l68 }
      some { st with callers := st.callers.set i th' }
    | Pc.l68 =>
      match st.chr.cur with
      | none => none
      | some cur =>
        match memcpy th.buf cur (size_t_of_int th.len) with
        | none => none
        | some buf' =>
          let th' : Caller := { th with buf := buf', pc := Pc.l69 }
          some { st with callers := st.callers.set i th' }
    | Pc.l69 =>
      match st.chr.cur with
      | none => none
      | some cur =>
        match ptr_add cur th.len with
        | none => none
        | some cur' =>
          let th' : Caller := { th with pc := Pc.l71 }
          some { st with chr := { st.chr with cur := some cur' },
                         callers := st.callers.set i th',
                         served := st.served ++ [⟨i, th.len, th.buf.take th.len.toNat⟩] }
    | Pc.l71 =>
      let th' : Caller := { th with pc := Pc.l72 }
      some { st with chr_write_lock := none, callers := st.callers.set i th' }
    | Pc.l72 =>
      let th' : Caller := { th with pc := Pc.l73 }
      some { st with callers := st.callers.set i th' }
    | Pc.l73 =>
      let th' : Caller := { th with pc := Pc.done }
      some { st with callers := st.callers.set i th',
                     returned := st.returned ++ [⟨i, th.len, th.buf.take th.len.toNat⟩] }
    | Pc.done => some st

/-- A schedule: the callers that take a step, one after the other. -/
def crun (st : Conc) : List Nat → Option Conc
  | [] => some st
  | i :: rest =>
    match cstep st i with
    | none => none
    | some st' => crun st' rest

/-- The callers enter `string_chr_sync_read`, each with its buffer and its
`len`; nobody holds the lock. -/
def cinit (chr : StringChardev) (calls : List (List Nat × Int)) : Conc :=
  ⟨chr, none, calls.map (fun c => ⟨Pc.l62, c.1, c.2, 0⟩), [], []⟩

/-- Every call has returned. -/
def all_done (st : Conc) : Prop := ∀ th ∈ st.callers, th.pc = Pc.done

instance (st : Conc) : Decidable (all_done st) := by
  unfold all_done; infer_instance

/-- Two callers on `hello`: the first asks for 3 bytes, the second for 10. -/
def two_calls : List (List Nat × Int) := [([0, 0, 0], 3), ([0, 0, 0, 0], 10)]

/-- The first caller runs up to and including the unlock, the second runs its
whole call, then the first prints its trace line and returns. -/
def late_return : List Nat := [0, 0, 0, 0, 0, 0, 1, 1, 1, 1, 1, 1, 1, 1, 0, 0]


/-- The state at the end of `late_return`: both calls have returned, the
second one first. -/
def late_state : Conc :=
  ⟨hello_end, none,
    [⟨Pc.done, [104, 101, 108], 3, 5⟩, ⟨Pc.done, [108, 111, 0, 0], 2, 2⟩],
    [⟨0, 3, [104, 101, 108]⟩, ⟨1, 2, [108, 111]⟩],
    [⟨1, 2, [108, 111]⟩, ⟨0, 3, [104, 101, 108]⟩]⟩

/-- The positions at which the cursor has been advanced for the call. -/
def Pc.post : Pc → Prop
  | Pc.l71 => True
  | Pc.l72 => True
  | Pc.l73 => True
  | Pc.done => True
  | _ => False

/-- What holds of the locals of caller `i`, whose request was `r`, while the
cursor offset is `c`: a caller between lock and unlock owns the lock; `len`
is the request up to the clamp and the clamped request after it; after the
copy the buffer starts with the bytes at the cursor. -/
def Local (t : CharPtr) (c : Nat) (lock : Option Nat) (i : Nat) (r : Int)
    (th : Caller) : Prop :=
  match th.pc with
  | Pc.l62 => th.len = r
  | Pc.l63 => lock = some i ∧ th.len = r
  | Pc.l65 => lock = some i ∧ th.len = r ∧ th.remaining_len = strlen t - c
  | Pc.l68 => lock = some i ∧ th.len = ((min r.toNat (strlen t - c) : Nat) : Int)
  | Pc.l69 => lock = some i ∧ th.len = ((min r.toNat (strlen t - c) : Nat) : Int) ∧
      th.buf.take th.len.toNat = ((cstr t).drop c).take th.len.toNat
  | Pc.l71 => lock = some i
  | _ => True

/-- The invariant of the interleaved execution on the text `t`, for callers
with the requests `reqs`, at cursor offset `c`. -/
structure CInv (t : CharPtr) (reqs : List Int) (st : Conc) (c : Nat) : Prop where
  opened : Opened st.chr t c
  len_eq : st.callers.length = reqs.length
  loc : ∀ (i : Nat) (th : Caller) (r : Int), st.callers[i]? = some th → reqs[i]? = some r →
    Local t c st.chr_write_lock i r th
  flat : (st.served.map Chunk.bytes).flatten = (cstr t).take c
  total : c = min (strlen t) ((st.served.map (fun e => (reqs.getD e.tid 0).toNat)).sum)
  cnt : ∀ e ∈ st.served, e.count = (e.bytes.length : Int)
  nodup : (st.served.map Chunk.tid).Nodup
  srv : ∀ e ∈ st.served, ∃ th : Caller, st.callers[e.tid]? = some th ∧ th.pc.post ∧
    e.count = th.len ∧ e.bytes = th.buf.take th.len.toNat
  srv_all : ∀ (i : Nat) (th : Caller), st.callers[i]? = some th → th.pc.post →
    ∃ e ∈ st.served, e.tid = i
  rnodup : (st.returned.map Chunk.tid).Nodup
  ret : ∀ e ∈ st.returned, e ∈ st.served ∧
    ∃ th : Caller, st.callers[e.tid]? = some th ∧ th.pc = Pc.done
  ret_all : ∀ (i : Nat) (th : Caller), st.callers[i]? = some th → th.pc = Pc.done →
    ∃ e ∈ st.returned, e.tid = i


/-! ## Auxiliary facts -/

theorem takeWhile_drop_of_le {α : Type} (p : α → Bool) :
    ∀ (l : List α) (c : Nat), c ≤ (l.takeWhile p).length →
      (l.drop c).takeWhile p = (l.takeWhile p).drop c
  | _, 0, _ => by simp
  | [], c + 1, h => by simp at h
  | a :: l, c + 1, h => by
    by_cases hp : p a = true
    · simp only [List.takeWhile_cons_of_pos hp, List.length_cons,
        Nat.add_le_add_iff_right] at h
      simp only [List.drop_succ_cons, List.takeWhile_cons_of_pos hp]
      exact takeWhile_drop_of_le p l c h
    · simp [List.takeWhile_cons_of_neg hp] at h

theorem take_eq_take_takeWhile {α : Type} (p : α → Bool) :
    ∀ (l : List α) (n : Nat), n ≤ (l.takeWhile p).length →
      l.take n = (l.takeWhile p).take n
  | _, 0, _ => by simp
  | [], n + 1, h => by simp at h
  | a :: l, n + 1, h => by
    by_cases hp : p a = true
    · simp only [List.takeWhile_cons_of_pos hp, List.length_cons,
        Nat.add_le_add_iff_right] at h
      simp only [List.take_succ_cons, List.takeWhile_cons_of_pos hp]
      rw [take_eq_take_takeWhile p l n h]
    · simp [List.takeWhile_cons_of_neg hp] at h

/-- A C string fits in what is left of its allocation. -/
theorem strlen_le (t : CharPtr) : strlen t ≤ t.mem.length - t.off := by
  unfold strlen cstr
  have h := (List.takeWhile_sublist (l := t.mem.drop t.off) (fun b => b != 0)).length_le
  simpa using h

/-- Moving a pointer forward inside the string drops that many bytes of it. -/
theorem cstr_add (t : CharPtr) (c : Nat) (h : c ≤ strlen t) :
    cstr ⟨t.mem, t.off + c⟩ = (cstr t).drop c := by
  unfold cstr
  simp only
  rw [← takeWhile_drop_of_le _ _ c h, List.drop_drop]

theorem strlen_add (t : CharPtr) (c : Nat) (h : c ≤ strlen t) :
    strlen ⟨t.mem, t.off + c⟩ = strlen t - c := by
  unfold strlen
  rw [cstr_add t c h, List.length_drop]

/-- The bytes `memcpy` reads at a pointer, as long as it stays in the string. -/
theorem take_mem_eq (p : CharPtr) (n : Nat) (hv : p.off ≤ p.mem.length)
    (h : n ≤ strlen p) :
    ((p.mem ++ [0]).drop p.off).take n = (cstr p).take n := by
  have hl := strlen_le p
  rw [List.drop_append_of_le_length hv, List.take_append_of_le_length (by simp; omega)]
  exact take_eq_take_takeWhile _ _ n h

theorem size_t_of_int_nat (n : Nat) (h : (n : Int) ≤ INT_MAX) :
    size_t_of_int (n : Int) = n := by
  unfold size_t_of_int
  unfold INT_MAX at h
  omega

theorem int_of_size_t_small (n : Nat) (h : (n : Int) ≤ INT_MAX) :
    int_of_size_t n = (n : Int) := by
  unfold int_of_size_t
  unfold INT_MAX at h
  split <;> omega

/-- The read at an opened device, once the clamped `len` is known to be a
count `n` of bytes that are left. -/
theorem sync_read_clamped (s : StringChardev) (t : CharPtr) (c : Nat)
    (buf : List Nat) (len : Int) (n : Nat) (h : Opened s t c)
    (hn : n ≤ strlen t - c) (hmax : (n : Int) ≤ INT_MAX)
    (hlen : (if size_t_of_int len > strlen t - c then int_of_size_t (strlen t - c)
      else len) = (n : Int)) :
    string_chr_sync_read s buf len =
      some ((n : Int), ((cstr t).drop c).take n ++ buf.drop n,
        { s with cur := some ⟨t.mem, t.off + (c + n)⟩ }) := by
  obtain ⟨_, hcur, hv, hc⟩ := h
  have hl := strlen_le t
  have hr := strlen_add t c hc
  have hbytes := take_mem_eq ⟨t.mem, t.off + c⟩ n (by simp only; omega) (by omega)
  rw [cstr_add t c hc] at hbytes
  simp only at hbytes
  unfold string_chr_sync_read
  simp only [hcur, hr, hlen, size_t_of_int_nat n hmax, memcpy, ptr_add]
  have h1 : t.off + c + n ≤ t.mem.length + 1 := by omega
  have h2 : 0 ≤ ((t.off + c : Nat) : Int) + (n : Int) ∧
      ((t.off + c : Nat) : Int) + (n : Int) ≤ (t.mem.length : Int) + 1 := by omega
  have h3 : (((t.off + c : Nat) : Int) + (n : Int)).toNat = t.off + (c + n) := by omega
  rw [if_pos h1, if_pos h2, h3, hbytes]

/-- The read with a `len` that is not negative. -/
theorem sync_read_nonneg (s : StringChardev) (t : CharPtr) (c : Nat)
    (buf : List Nat) (len : Int) (h : Opened s t c) (h0 : 0 ≤ len)
    (h1 : len ≤ INT_MAX) :
    string_chr_sync_read s buf len =
      some (((min len.toNat (strlen t - c) : Nat) : Int),
        ((cstr t).drop c).take (min len.toNat (strlen t - c)) ++
          buf.drop (min len.toNat (strlen t - c)),
        { s with cur := some ⟨t.mem, t.off + (c + min len.toNat (strlen t - c))⟩ }) := by
  have hI : INT_MAX = 2 ^ 31 - 1 := rfl
  apply sync_read_clamped s t c buf len _ h (Nat.min_le_right _ _) (by omega)
  have hs : size_t_of_int len = len.toNat := by unfold size_t_of_int; omega
  rw [hs]
  by_cases hgt : len.toNat > strlen t - c
  · rw [if_pos hgt, int_of_size_t_small _ (by omega)]
    omega
  · rw [if_neg hgt]
    omega

/-- The read with a negative `len`, the rest of the text fitting an `int`. -/
theorem sync_read_neg (s : StringChardev) (t : CharPtr) (c : Nat)
    (buf : List Nat) (len : Int) (h : Opened s t c)
    (hr : ((strlen t - c : Nat) : Int) ≤ INT_MAX) (h0 : INT_MIN ≤ len) (h1 : len < 0) :
    string_chr_sync_read s buf len =
      some (((strlen t - c : Nat) : Int),
        (cstr t).drop c ++ buf.drop (strlen t - c),
        { s with cur := some ⟨t.mem, t.off + strlen t⟩ }) := by
  have hI : INT_MAX = 2 ^ 31 - 1 := rfl
  have hJ : INT_MIN = -(2 ^ 31) := rfl
  have hgt : size_t_of_int len > strlen t - c := by unfold size_t_of_int; omega
  have key := sync_read_clamped s t c buf len (strlen t - c) h (Nat.le_refl _) hr
    (by rw [if_pos hgt, int_of_size_t_small _ hr])
  have hc : c ≤ strlen t := h.2.2.2
  have e1 : c + (strlen t - c) = strlen t := by omega
  have e2 : ((cstr t).drop c).take (strlen t - c) = (cstr t).drop c := by
    apply List.take_of_length_le
    simp [strlen]
  rw [key, e1, e2]

theorem sum_nonneg_of_sizes (sizes : List Int) (h : ∀ n ∈ sizes, 0 ≤ n ∧ n ≤ INT_MAX) :
    0 ≤ sizes.sum := by
  induction sizes with
  | nil => simp
  | cons n ns ih =>
    have hn := (h n (List.mem_cons_self n ns)).1
    have hs := ih (fun m hm => h m (List.mem_cons_of_mem n hm))
    simp only [List.sum_cons]
    omega

theorem take_min_append_take {α : Type} (X : List α) (a m : Nat) :
    X.take (min a X.length) ++ (X.drop (min a X.length)).take m = X.take (a + m) := by
  by_cases ha : a ≤ X.length
  · rw [Nat.min_eq_left ha, List.take_add]
  · have hl : X.length ≤ a := by omega
    rw [Nat.min_eq_right hl, List.take_length, List.drop_length, List.take_nil,
      List.append_nil, List.take_of_length_le (by omega)]

/-- A sequence of reads from an opened device: every read returns, and the
chunks put end to end are the bytes that follow the cursor, as many as asked
for or as are left. -/
theorem read_seq_opened (t : CharPtr) :
    ∀ (sizes : List Int) (s : StringChardev) (c : Nat), Opened s t c →
      (∀ n ∈ sizes, 0 ≤ n ∧ n ≤ INT_MAX) →
      ∃ (outs : List (List Nat)) (last : StringChardev),
        read_seq s sizes = some (outs, last) ∧
        outs.flatten = ((cstr t).drop c).take sizes.sum.toNat
  | [], s, c, _, _ => ⟨[], s, rfl, by simp⟩
  | n :: ns, s, c, h, hs => by
    have hn := hs n (List.mem_cons_self n ns)
    have hns : ∀ m ∈ ns, 0 ≤ m ∧ m ≤ INT_MAX := fun m hm => hs m (List.mem_cons_of_mem n hm)
    have hc : c ≤ strlen t := h.2.2.2
    have key := sync_read_nonneg s t c (List.replicate n.toNat 0) n h hn.1 hn.2
    have hop : Opened { s with cur := some ⟨t.mem, t.off + (c + min n.toNat (strlen t - c))⟩ }
        t (c + min n.toNat (strlen t - c)) := ⟨h.1, rfl, h.2.2.1, by omega⟩
    obtain ⟨outs, last, hrun, hflat⟩ := read_seq_opened t ns _ _ hop hns
    refine ⟨((((cstr t).drop c).take (min n.toNat (strlen t - c)) ++
      (List.replicate n.toNat 0).drop (min n.toNat (strlen t - c))).take
        ((min n.toNat (strlen t - c) : Nat) : Int).toNat) :: outs, last,
      by simp only [read_seq, key, hrun], ?_⟩
    have hsum := sum_nonneg_of_sizes ns hns
    have hlen : (((cstr t).drop c).take (min n.toNat (strlen t - c))).length =
        min n.toNat (strlen t - c) := by
      simp only [List.length_take, List.length_drop, strlen]
      omega
    have e1 : (n :: ns).sum.toNat = n.toNat + ns.sum.toNat := by
      simp only [List.sum_cons]
      omega
    have e2 : strlen t - c = ((cstr t).drop c).length := by simp [strlen]
    simp only [Int.toNat_ofNat, List.flatten_cons, hflat]
    rw [List.take_append_of_le_length (by omega), List.take_of_length_le (by omega),
      e1, ← List.drop_drop, e2]
    exact take_min_append_take _ _ _

theorem takeWhile_takeWhile {α : Type} (p : α → Bool) :
    ∀ l : List α, (l.takeWhile p).takeWhile p = l.takeWhile p
  | [] => rfl
  | a :: l => by
    by_cases hp : p a = true
    · simp only [List.takeWhile_cons_of_pos hp]
      rw [takeWhile_takeWhile p l]
    · simp only [List.takeWhile_cons_of_neg hp, List.takeWhile_nil]

/-- The copy made by `strdup` denotes the same C string as the original. -/
theorem cstr_strdup (p : CharPtr) : cstr (strdup p) = cstr p := by
  simp only [strdup, cstr, List.drop_zero]
  exact takeWhile_takeWhile _ _

theorem int_of_ssize_t_small (i : Int) (h0 : INT_MIN ≤ i) (h1 : i ≤ INT_MAX) :
    int_of_ssize_t i = i := by
  unfold int_of_ssize_t
  unfold INT_MIN at h0
  unfold INT_MAX at h1
  split <;> omega

/-- A call from a state that holds the text `t` with the cursor inside it
returns, keeps the text, keeps the cursor inside and does not move it back. -/
theorem step_opened {σ : Type} (write : σ → Nat → List Nat → Nat → Int × σ)
    (fprintf : σ → String → String → List Int → σ)
    (st : σ × StringChardev) (t : CharPtr) (c : Nat) (call : Call)
    (h : Opened st.2 t c) (hok : call.ok) :
    ∃ (st' : σ × StringChardev) (c' : Nat),
      step write fprintf st call = some st' ∧ Opened st'.2 t c' ∧ c ≤ c' := by
  cases call with
  | Write buf len => exact ⟨_, c, rfl, h, Nat.le_refl c⟩
  | SyncRead buf len =>
    have hc : c ≤ strlen t := h.2.2.2
    have key := sync_read_nonneg st.2 t c buf len h hok.1 hok.2
    refine ⟨(fprintf st.1 "%s: Giving %d bytes\n" "string_chr_sync_read"
        [((min len.toNat (strlen t - c) : Nat) : Int)],
        { st.2 with cur := some ⟨t.mem, t.off + (c + min len.toNat (strlen t - c))⟩ }),
      c + min len.toNat (strlen t - c), by simp only [step, key], ?_, by omega⟩
    exact ⟨h.1, rfl, h.2.2.1, by omega⟩

/-- The offset of the cursor of a device that holds `t` with the cursor `c`
bytes in. -/
theorem cursor_offset_opened (s : StringChardev) (t : CharPtr) (c : Nat)
    (h : Opened s t c) : cursor_offset s = (c : Int) := by
  simp only [cursor_offset, h.1, h.2.1]
  omega

theorem reachable_opened {σ : Type} (write : σ → Nat → List Nat → Nat → Int × σ)
    (fprintf : σ → String → String → List Int → σ)
    (init st : σ × StringChardev) (t : CharPtr) (h0 : Opened init.2 t 0)
    (hr : Reachable write fprintf init st) : ∃ c : Nat, Opened st.2 t c := by
  induction hr with
  | start => exact ⟨0, h0⟩
  | call st st' call _ hok hstep ih =>
    obtain ⟨c, hc⟩ := ih
    obtain ⟨st2, c', hs, hop, _⟩ := step_opened write fprintf st t c call hc hok
    rw [hs] at hstep
    cases hstep
    exact ⟨c', hop⟩

/-- A sequence of admissible calls that runs through ends in a reachable
state. -/
theorem run_reachable {σ : Type} (write : σ → Nat → List Nat → Nat → Int × σ)
    (fprintf : σ → String → String → List Int → σ)
    (init : σ × StringChardev) :
    ∀ (calls : List Call) (st last : σ × StringChardev), Reachable write fprintf init st →
      (∀ c ∈ calls, c.ok) → run write fprintf st calls = some last →
      Reachable write fprintf init last
  | [], st, last, hr, _, hrun => by
    simp only [run, Option.some.injEq] at hrun
    exact hrun ▸ hr
  | c :: cs, st, last, hr, hok, hrun => by
    simp only [run] at hrun
    cases hs : step write fprintf st c with
    | none => simp [hs] at hrun
    | some st' =>
      rw [hs] at hrun
      exact run_reachable write fprintf init cs st' last
        (Reachable.call st st' c hr (hok c (List.mem_cons_self c cs)) hs)
        (fun d hd => hok d (List.mem_cons_of_mem c hd)) hrun

/-- Outside the range of the properties below: with exactly `2 ^ 31` bytes
left (one more than `INT_MAX`) in an allocation of less than `2 ^ 63` bytes, a
negative `len` makes the call undefined. The clamp stores `2 ^ 31` in the
`int` `len`, which wraps to `INT_MIN`, and the copy of `(size_t) INT_MIN`
bytes leaves the allocation. -/
theorem sync_read_neg_len_long_text (s : StringChardev) (t : CharPtr) (c : Nat)
    (buf : List Nat) (len : Int) (h : Opened s t c) (hr : strlen t - c = 2 ^ 31)
    (hm : t.mem.length < 2 ^ 63) (h0 : INT_MIN ≤ len) (h1 : len < 0) :
    string_chr_sync_read s buf len = none := by
  have hJ : INT_MIN = -(2 ^ 31) := rfl
  obtain ⟨_, hcur, hv, hc⟩ := h
  have hl := strlen_add t c hc
  have hgt : size_t_of_int len > 2 ^ 31 := by unfold size_t_of_int; omega
  have h2 : int_of_size_t (2 ^ 31) = -(2 ^ 31) := by
    unfold int_of_size_t
    split <;> omega
  have h3 : size_t_of_int (-(2 ^ 31)) = 2 ^ 64 - 2 ^ 31 := by
    unfold size_t_of_int
    omega
  have h4 : ¬ (t.off + c + (2 ^ 64 - 2 ^ 31) ≤ t.mem.length + 1) := by omega
  simp only [string_chr_sync_read, hcur, hl, hr]
  rw [if_pos hgt, h2, h3]
  simp only [memcpy, if_neg h4]

/-! ## Facts about the interleaved execution -/

theorem getElem?_set_some {α : Type} (l : List α) (i j : Nat) (a b : α)
    (h : (l.set i a)[j]? = some b) : (j = i ∧ b = a) ∨ (j ≠ i ∧ l[j]? = some b) := by
  by_cases hij : i = j
  · subst hij
    rw [List.getElem?_set] at h
    simp only [if_true] at h
    split at h
    · left; exact ⟨rfl, (Option.some.inj h).symm⟩
    · cases h
  · rw [List.getElem?_set_ne hij] at h
    right; exact ⟨fun e => hij e.symm, h⟩

/-- One caller changes its locals, and with that the device, the lock and
the records change: what has to be checked for the invariant to go on. -/
theorem cinv_update (t : CharPtr) (reqs : List Int) (st : Conc) (c c' : Nat) (i : Nat)
    (th th' : Caller) (r : Int) (chr' : StringChardev) (lock' : Option Nat)
    (served' returned' : List Chunk)
    (h : CInv t reqs st c) (hth : st.callers[i]? = some th) (hr : reqs[i]? = some r)
    (hop : Opened chr' t c')
    (hloc : Local t c' lock' i r th')
    (hoth : ∀ (j : Nat) (thj : Caller) (rj : Int), j ≠ i → st.callers[j]? = some thj →
      Local t c st.chr_write_lock j rj thj → Local t c' lock' j rj thj)
    (hflat : (served'.map Chunk.bytes).flatten = (cstr t).take c')
    (htot : c' = min (strlen t) ((served'.map (fun e => (reqs.getD e.tid 0).toNat)).sum))
    (hnodup : (served'.map Chunk.tid).Nodup)
    (hs1 : ∀ e ∈ served', e ∈ st.served ∨ (e.tid = i ∧ th'.pc.post ∧ e.count = th'.len ∧
      e.bytes = th'.buf.take th'.len.toNat ∧ e.count = (e.bytes.length : Int)))
    (hs2 : ∀ e ∈ st.served, e ∈ served')
    (hpost : th.pc.post → th'.pc.post ∧ th'.len = th.len ∧ th'.buf = th.buf)
    (hpost' : th'.pc.post → ∃ e ∈ served', e.tid = i)
    (hnd : th.pc ≠ Pc.done)
    (hrnodup : (returned'.map Chunk.tid).Nodup)
    (hr1 : ∀ e ∈ returned', e ∈ st.returned ∨ (e ∈ served' ∧ e.tid = i ∧ th'.pc = Pc.done))
    (hr2 : ∀ e ∈ st.returned, e ∈ returned')
    (hdone : th'.pc = Pc.done → ∃ e ∈ returned', e.tid = i) :
    CInv t reqs ⟨chr', lock', st.callers.set i th', served', returned'⟩ c' := by
  have hi : i < st.callers.length := by
    rcases List.getElem?_eq_some_iff.1 hth with ⟨hlt, _⟩
    exact hlt
  have hself : (st.callers.set i th')[i]? = some th' := List.getElem?_set_self hi
  refine ⟨hop, by simp [h.len_eq], ?_, hflat, htot, ?_, hnodup, ?_, ?_, hrnodup, ?_, ?_⟩
  · intro j thj rj hj hrj
    rcases getElem?_set_some _ _ _ _ _ hj with ⟨rfl, rfl⟩ | ⟨hne, hj'⟩
    · rw [hr] at hrj
      cases hrj
      exact hloc
    · exact hoth j thj rj hne hj' (h.loc j thj rj hj' hrj)
  · intro e he
    rcases hs1 e he with hold | ⟨_, _, _, _, hc⟩
    · exact h.cnt e hold
    · exact hc
  · intro e he
    rcases hs1 e he with hold | ⟨htid, hp, hcnt, hb, _⟩
    · obtain ⟨the, hge, hpe, hce, hbe⟩ := h.srv e hold
      by_cases hei : e.tid = i
      · rw [hei] at hge ⊢
        rw [hth] at hge
        cases hge
        obtain ⟨hp', hl', hb'⟩ := hpost hpe
        exact ⟨th', hself, hp', by rw [hl']; exact hce, by rw [hl', hb']; exact hbe⟩
      · exact ⟨the, by rw [List.getElem?_set_ne (fun e' => hei e'.symm)]; exact hge, hpe, hce, hbe⟩
    · rw [htid]
      exact ⟨th', hself, hp, hcnt, hb⟩
  · intro j thj hj hp
    rcases getElem?_set_some _ _ _ _ _ hj with ⟨rfl, rfl⟩ | ⟨hne, hj'⟩
    · exact hpost' hp
    · obtain ⟨e, he, hte⟩ := h.srv_all j thj hj' hp
      exact ⟨e, hs2 e he, hte⟩
  · intro e he
    rcases hr1 e he with hold | ⟨hsv, htid, hd⟩
    · obtain ⟨hsv, the, hge, hde⟩ := h.ret e hold
      refine ⟨hs2 e hsv, the, ?_, hde⟩
      by_cases hei : e.tid = i
      · rw [hei, hth] at hge
        cases hge
        exact absurd hde hnd
      · rw [List.getElem?_set_ne (fun e' => hei e'.symm)]; exact hge
    · rw [htid]
      exact ⟨hsv, th', hself, hd⟩
  · intro j thj hj hd
    rcases getElem?_set_some _ _ _ _ _ hj with ⟨rfl, rfl⟩ | ⟨hne, hj'⟩
    · exact hdone hd
    · obtain ⟨e, he, hte⟩ := h.ret_all j thj hj' hd
      exact ⟨e, hr2 e he, hte⟩

/-- The locals of another caller stay as they are when the lock changes hands:
that caller is not between lock and unlock. -/
theorem local_other (t : CharPtr) (c c' : Nat) (lock lock' : Option Nat) (i j : Nat)
    (rj : Int) (thj : Caller) (hne : j ≠ i)
    (hl : lock = none ∨ lock = some i) (h : Local t c lock j rj thj) :
    Local t c' lock' j rj thj := by
  have hno : lock ≠ some j := by
    rcases hl with hl | hl
    · rw [hl]; simp
    · rw [hl]; intro e; exact hne (Option.some.inj e).symm
  unfold Local at h ⊢
  cases hpc : thj.pc <;> simp only [hpc] at h ⊢ <;>
    first
      | exact h
      | exact absurd h.1 hno
      | exact absurd h hno

/-- A caller that has not advanced the cursor has no chunk among the served. -/
theorem not_served (t : CharPtr) (reqs : List Int) (st : Conc) (c i : Nat) (th : Caller)
    (h : CInv t reqs st c) (hth : st.callers[i]? = some th) (hp : ¬ th.pc.post) :
    i ∉ st.served.map Chunk.tid := by
  intro hm
  obtain ⟨e, he, hte⟩ := List.mem_map.1 hm
  obtain ⟨the, hge, hpe, _⟩ := h.srv e he
  rw [hte, hth] at hge
  cases hge
  exact hp hpe

/-- Every line of every caller is defined and keeps the invariant. -/
theorem cstep_inv (t : CharPtr) (reqs : List Int)
    (hreq : ∀ r ∈ reqs, 0 ≤ r ∧ r ≤ INT_MAX) (st : Conc) (c i : Nat)
    (h : CInv t reqs st c) :
    ∃ (st' : Conc) (c' : Nat), cstep st i = some st' ∧ CInv t reqs st' c' := by
  have hI : INT_MAX = 2 ^ 31 - 1 := rfl
  unfold cstep
  cases hth : st.callers[i]? with
  | none => exact ⟨st, c, rfl, h⟩
  | some th =>
    have hi : i < st.callers.length := (List.getElem?_eq_some_iff.1 hth).1
    have hir : i < reqs.length := by rw [← h.len_eq]; exact hi
    obtain ⟨r, hr⟩ : ∃ r, reqs[i]? = some r := ⟨reqs[i], List.getElem?_eq_getElem hir⟩
    have hrm : r ∈ reqs := List.mem_iff_getElem?.2 ⟨i, hr⟩
    obtain ⟨hr0, hr1⟩ := hreq r hrm
    have hl := h.loc i th r hth hr
    obtain ⟨htext, hcur, hv, hc⟩ := h.opened
    have hsl := strlen_le t
    simp only
    cases hpc : th.pc with
    | l62 =>
      simp only
      cases hlk : st.chr_write_lock with
      | some o => exact ⟨st, c, rfl, h⟩
      | none =>
        refine ⟨_, c, rfl, ?_⟩
        simp only [Local, hpc] at hl
        refine cinv_update t reqs st c c i th _ r st.chr (some i) st.served st.returned h hth hr
          h.opened ?_ ?_ h.flat h.total h.nodup (fun e he => Or.inl he) (fun e he => he)
          ?_ ?_ ?_ h.rnodup (fun e he => Or.inl he) (fun e he => he) ?_
        · simp only [Local]; exact ⟨trivial, hl⟩
        · intro j thj rj hne _ hj
          exact local_other t c c _ _ i j rj thj hne (Or.inl hlk) hj
        · intro hp; rw [hpc] at hp; exact hp.elim
        · intro hp; exact hp.elim
        · rw [hpc]; simp
        · intro hd; cases hd
    | l63 =>
      simp only [hcur]
      refine ⟨_, c, rfl, ?_⟩
      simp only [Local, hpc] at hl
      refine cinv_update t reqs st c c i th _ r st.chr st.chr_write_lock st.served st.returned
        h hth hr h.opened ?_ ?_ h.flat h.total h.nodup (fun e he => Or.inl he) (fun e he => he)
        ?_ ?_ ?_ h.rnodup (fun e he => Or.inl he) (fun e he => he) ?_
      · simp only [Local]; exact ⟨hl.1, hl.2, strlen_add t c hc⟩
      · intro j thj rj _ _ hj; exact hj
      · intro hp; rw [hpc] at hp; exact hp.elim
      · intro hp; exact hp.elim
      · rw [hpc]; simp
      · intro hd; cases hd
    | l65 =>
      refine ⟨_, c, rfl, ?_⟩
      simp only [Local, hpc] at hl
      obtain ⟨hlock, hlen, hrem⟩ := hl
      refine cinv_update t reqs st c c i th _ r st.chr st.chr_write_lock st.served st.returned
        h hth hr h.opened ?_ ?_ h.flat h.total h.nodup (fun e he => Or.inl he) (fun e he => he)
        ?_ ?_ ?_ h.rnodup (fun e he => Or.inl he) (fun e he => he) ?_
      · simp only [Local]
        refine ⟨hlock, ?_⟩
        rw [hlen, hrem]
        have hs : size_t_of_int r = r.toNat := by unfold size_t_of_int; omega
        rw [hs]
        by_cases hgt : r.toNat > strlen t - c
        · rw [if_pos hgt, int_of_size_t_small _ (by omega)]
          omega
        · rw [if_neg hgt]
          omega
      · intro j thj rj _ _ hj; exact hj
      · intro hp; rw [hpc] at hp; exact hp.elim
      · intro hp; exact hp.elim
      · rw [hpc]; simp
      · intro hd; cases hd
    | l68 =>
      simp only [Local, hpc] at hl
      obtain ⟨hlock, hlen⟩ := hl
      have hn : min r.toNat (strlen t - c) ≤ strlen t - c := Nat.min_le_right _ _
      have hbytes := take_mem_eq ⟨t.mem, t.off + c⟩ (min r.toNat (strlen t - c))
        (by simp only; omega) (by rw [strlen_add t c hc]; exact hn)
      rw [cstr_add t c hc] at hbytes
      simp only at hbytes
      have hsz : size_t_of_int th.len = min r.toNat (strlen t - c) := by
        rw [hlen]; exact size_t_of_int_nat _ (by omega)
      have hcp : memcpy th.buf ⟨t.mem, t.off + c⟩ (size_t_of_int th.len) =
          some (((cstr t).drop c).take (min r.toNat (strlen t - c)) ++
            th.buf.drop (min r.toNat (strlen t - c))) := by
        rw [hsz]
        simp only [memcpy]
        rw [if_pos (by omega), hbytes]
      simp only [hcur, hcp]
      refine ⟨_, c, rfl, ?_⟩
      refine cinv_update t reqs st c c i th _ r st.chr st.chr_write_lock st.served st.returned
        h hth hr h.opened ?_ ?_ h.flat h.total h.nodup (fun e he => Or.inl he) (fun e he => he)
        ?_ ?_ ?_ h.rnodup (fun e he => Or.inl he) (fun e he => he) ?_
      · simp only [Local]
        refine ⟨hlock, hlen, ?_⟩
        rw [hlen]
        simp only [Int.toNat_ofNat]
        rw [List.take_append_of_le_length (by
          simp only [List.length_take, List.length_drop, strlen] at hn ⊢; omega)]
        rw [List.take_take, Nat.min_self]
      · intro j thj rj _ _ hj; exact hj
      · intro hp; rw [hpc] at hp; exact hp.elim
      · intro hp; exact hp.elim
      · rw [hpc]; simp
      · intro hd; cases hd
    | l69 =>
      simp only [Local, hpc] at hl
      obtain ⟨hlock, hlen, hbuf⟩ := hl
      have hn : min r.toNat (strlen t - c) ≤ strlen t - c := Nat.min_le_right _ _
      have hadd : ptr_add ⟨t.mem, t.off + c⟩ th.len =
          some ⟨t.mem, t.off + (c + min r.toNat (strlen t - c))⟩ := by
        rw [hlen]
        simp only [ptr_add]
        rw [if_pos (by omega)]
        congr 2
        omega
      simp only [hcur, hadd]
      refine ⟨_, c + min r.toNat (strlen t - c), rfl, ?_⟩
      have hns := not_served t reqs st c i th h hth (by rw [hpc]; exact fun hp => hp)
      have hlt : th.len.toNat = min r.toNat (strlen t - c) := by omega
      have hblen : (th.buf.take th.len.toNat).length = th.len.toNat := by
        rw [hbuf, hlt]
        simp only [List.length_take, List.length_drop, strlen] at hn ⊢
        omega
      refine cinv_update t reqs st c (c + min r.toNat (strlen t - c)) i th _ r
        ⟨st.chr.text, some ⟨t.mem, t.off + (c + min r.toNat (strlen t - c))⟩⟩
        st.chr_write_lock (st.served ++ [⟨i, th.len, th.buf.take th.len.toNat⟩]) st.returned
        h hth hr ⟨htext, rfl, hv, by omega⟩ ?_ ?_ ?_ ?_ ?_ ?_ (fun e he => List.mem_append_left _ he)
        ?_ ?_ ?_ h.rnodup (fun e he => Or.inl he) (fun e he => he) ?_
      · simp only [Local]; exact hlock
      · intro j thj rj hne _ hj
        exact local_other t c _ _ _ i j rj thj hne (Or.inr hlock) hj
      · simp only [List.map_append, List.flatten_append, List.map_cons, List.map_nil,
          List.flatten_cons, List.flatten_nil, List.append_nil]
        rw [h.flat, hbuf, hlt, List.take_add]
      · simp only [List.map_append, List.sum_append, List.map_cons, List.map_nil,
          List.sum_cons, List.sum_nil]
        have hg : reqs.getD i 0 = r := by
          rw [List.getD_eq_getElem?_getD, hr]; rfl
        rw [hg]
        have htot := h.total
        omega
      · simp only [List.map_append, List.map_cons, List.map_nil]
        rw [List.nodup_append]
        refine ⟨h.nodup, by simp, ?_⟩
        intro a ha hb
        simp only [List.mem_singleton] at hb
        rw [hb] at ha
        exact hns ha
      · intro e he
        rcases List.mem_append.1 he with he | he
        · exact Or.inl he
        · simp only [List.mem_singleton] at he
          right
          rw [he]
          exact ⟨rfl, trivial, rfl, rfl, by simp only; rw [hblen]; omega⟩
      · intro hp; rw [hpc] at hp; exact hp.elim
      · intro _
        exact ⟨_, List.mem_append_right _ (List.mem_singleton_self _), rfl⟩
      · rw [hpc]; simp
      · intro hd; cases hd
    | l71 =>
      refine ⟨_, c, rfl, ?_⟩
      simp only [Local, hpc] at hl
      refine cinv_update t reqs st c c i th _ r st.chr none st.served st.returned
        h hth hr h.opened ?_ ?_ h.flat h.total h.nodup (fun e he => Or.inl he) (fun e he => he)
        ?_ ?_ ?_ h.rnodup (fun e he => Or.inl he) (fun e he => he) ?_
      · simp only [Local]
      · intro j thj rj hne _ hj
        exact local_other t c c _ _ i j rj thj hne (Or.inr hl) hj
      · intro _; exact ⟨trivial, rfl, rfl⟩
      · intro _; exact h.srv_all i th hth (by rw [hpc]; trivial)
      · rw [hpc]; simp
      · intro hd; cases hd
    | l72 =>
      refine ⟨_, c, rfl, ?_⟩
      refine cinv_update t reqs st c c i th _ r st.chr st.chr_write_lock st.served st.returned
        h hth hr h.opened ?_ ?_ h.flat h.total h.nodup (fun e he => Or.inl he) (fun e he => he)
        ?_ ?_ ?_ h.rnodup (fun e he => Or.inl he) (fun e he => he) ?_
      · simp only [Local]
      · intro j thj rj _ _ hj; exact hj
      · intro _; exact ⟨trivial, rfl, rfl⟩
      · intro _; exact h.srv_all i th hth (by rw [hpc]; trivial)
      · rw [hpc]; simp
      · intro hd; cases hd
    | l73 =>
      refine ⟨_, c, rfl, ?_⟩
      obtain ⟨e, he, hte⟩ := h.srv_all i th hth (by rw [hpc]; trivial)
      obtain ⟨the, hge, _, hce, hbe⟩ := h.srv e he
      rw [hte, hth] at hge
      cases hge
      have hex : e = ⟨i, th.len, th.buf.take th.len.toNat⟩ := by
        cases e
        simp only at hte hce hbe
        rw [hte, hce, hbe]
      refine cinv_update t reqs st c c i th _ r st.chr st.chr_write_lock st.served
        (st.returned ++ [⟨i, th.len, th.buf.take th.len.toNat⟩])
        h hth hr h.opened ?_ ?_ h.flat h.total h.nodup (fun e he => Or.inl he) (fun e he => he)
        ?_ ?_ ?_ ?_ ?_ (fun e he => List.mem_append_left _ he) ?_
      · simp only [Local]
      · intro j thj rj _ _ hj; exact hj
      · intro _; exact ⟨trivial, rfl, rfl⟩
      · intro _; exact ⟨e, he, hte⟩
      · rw [hpc]; simp
      · simp only [List.map_append, List.map_cons, List.map_nil]
        rw [List.nodup_append]
        refine ⟨h.rnodup, by simp, ?_⟩
        intro a ha hb
        simp only [List.mem_singleton] at hb
        rw [hb] at ha
        obtain ⟨e', he', hte'⟩ := List.mem_map.1 ha
        obtain ⟨_, th2, hg2, hd2⟩ := h.ret e' he'
        rw [hte', hth] at hg2
        cases hg2
        rw [hpc] at hd2
        cases hd2
      · intro e' he'
        rcases List.mem_append.1 he' with he' | he'
        · exact Or.inl he'
        · simp only [List.mem_singleton] at he'
          right
          rw [he', ← hex]
          exact ⟨he, hte, rfl⟩
      · intro _
        exact ⟨_, List.mem_append_right _ (List.mem_singleton_self _), rfl⟩
    | done => exact ⟨st, c, rfl, h⟩

/-- Every schedule runs through and keeps the invariant. -/
theorem crun_inv (t : CharPtr) (reqs : List Int)
    (hreq : ∀ r ∈ reqs, 0 ≤ r ∧ r ≤ INT_MAX) :
    ∀ (sched : List Nat) (st : Conc) (c : Nat), CInv t reqs st c →
      ∃ (st' : Conc) (c' : Nat), crun st sched = some st' ∧ CInv t reqs st' c'
  | [], st, c, h => ⟨st, c, rfl, h⟩
  | i :: rest, st, c, h => by
    obtain ⟨st1, c1, hs, h1⟩ := cstep_inv t reqs hreq st c i h
    obtain ⟨st2, c2, hrun, h2⟩ := crun_inv t reqs hreq rest st1 c1 h1
    exact ⟨st2, c2, by simp only [crun, hs, hrun], h2⟩

/-- The invariant holds when the callers enter. -/
theorem cinit_inv (chr : StringChardev) (t : CharPtr) (calls : List (List Nat × Int))
    (hop : Opened chr t 0) : CInv t (calls.map Prod.snd) (cinit chr calls) 0 := by
  have hget : ∀ (i : Nat) (th : Caller), (cinit chr calls).callers[i]? = some th →
      th.pc = Pc.l62 ∧ (calls.map Prod.snd)[i]? = some th.len := by
    intro i th hth
    simp only [cinit, List.getElem?_map] at hth ⊢
    cases hc : calls[i]? with
    | none => rw [hc] at hth; cases hth
    | some call =>
      rw [hc] at hth
      simp only [Option.map_some', Option.some.injEq] at hth
      rw [← hth]
      exact ⟨rfl, rfl⟩
  refine ⟨hop, by simp [cinit], ?_, by simp [cinit], by simp [cinit], ?_, by simp [cinit],
    ?_, ?_, by simp [cinit], ?_, ?_⟩
  · intro i th r hth hr
    obtain ⟨hpc, hlen⟩ := hget i th hth
    rw [hr] at hlen
    simp only [Local, hpc]
    exact (Option.some.inj hlen).symm
  · intro e he; simp [cinit] at he
  · intro e he; simp [cinit] at he
  · intro i th hth hp
    rw [(hget i th hth).1] at hp
    exact hp.elim
  · intro e he; simp [cinit] at he
  · intro i th hth hd
    rw [(hget i th hth).1] at hd
    cases hd

theorem sum_counts (l : List Chunk) (h : ∀ e ∈ l, e.count = (e.bytes.length : Int)) :
    (l.map Chunk.count).sum = (((l.map Chunk.bytes).flatten.length : Nat) : Int) := by
  induction l with
  | nil => simp
  | cons e l ih =>
    have he := h e (List.mem_cons_self e l)
    have hl := ih (fun x hx => h x (List.mem_cons_of_mem e hx))
    simp only [List.map_cons, List.sum_cons, List.flatten_cons, List.length_append, hl, he]
    omega

theorem sum_toNat (l : List Int) (h : ∀ r ∈ l, 0 ≤ r ∧ r ≤ INT_MAX) :
    (l.map Int.toNat).sum = l.sum.toNat := by
  induction l with
  | nil => simp
  | cons r l ih =>
    have hr := (h r (List.mem_cons_self r l)).1
    have hl := ih (fun x hx => h x (List.mem_cons_of_mem r hx))
    have hs := sum_nonneg_of_sizes l (fun x hx => h x (List.mem_cons_of_mem r hx))
    simp only [List.map_cons, List.sum_cons, hl]
    omega

theorem map_getD_range (l : List Int) :
    (List.range l.length).map (fun i => (l.getD i 0).toNat) = l.map Int.toNat := by
  apply List.ext_getElem?
  intro i
  simp only [List.getElem?_map]
  by_cases hi : i < l.length
  · rw [List.getElem?_range hi, List.getElem?_eq_getElem hi]
    simp [List.getD_eq_getElem?_getD, List.getElem?_eq_getElem hi]
  · rw [List.getElem?_eq_none (by simpa using hi), List.getElem?_eq_none (by simpa using hi)]
    rfl

/-- Once every call has returned, each caller has exactly one served chunk. -/
theorem served_tids_perm (t : CharPtr) (reqs : List Int) (st : Conc) (c : Nat)
    (h : CInv t reqs st c) (hd : all_done st) :
    (st.served.map Chunk.tid).Perm (List.range st.callers.length) := by
  rw [List.perm_ext_iff_of_nodup h.nodup (List.nodup_range _)]
  intro a
  constructor
  · intro ha
    obtain ⟨e, he, hte⟩ := List.mem_map.1 ha
    obtain ⟨th, hg, _⟩ := h.srv e he
    rw [hte] at hg
    exact List.mem_range.2 (List.getElem?_eq_some_iff.1 hg).1
  · intro ha
    have hlt := List.mem_range.1 ha
    have hg : st.callers[a]? = some st.callers[a] := List.getElem?_eq_getElem hlt
    have hdone : st.callers[a].pc = Pc.done := hd _ (List.getElem_mem hlt)
    obtain ⟨e, he, hte⟩ := h.srv_all a _ hg (by rw [hdone]; trivial)
    exact List.mem_map.2 ⟨e, he, hte⟩

/-- Once every call has returned, the returned chunks are the served chunks,
possibly in another order. -/
theorem returned_perm_served (t : CharPtr) (reqs : List Int) (st : Conc) (c : Nat)
    (h : CInv t reqs st c) (hd : all_done st) : st.returned.Perm st.served := by
  rw [List.perm_ext_iff_of_nodup (List.Nodup.of_map _ h.rnodup) (List.Nodup.of_map _ h.nodup)]
  intro e
  constructor
  · intro he; exact (h.ret e he).1
  · intro he
    obtain ⟨th, hg, _⟩ := h.srv e he
    have hdone : th.pc = Pc.done := hd th (List.mem_iff_getElem?.2 ⟨e.tid, hg⟩)
    obtain ⟨e', he', hte'⟩ := h.ret_all e.tid th hg hdone
    have hs' := (h.ret e' he').1
    have heq : e' = e := List.inj_on_of_nodup_map h.nodup hs' he hte'
    rw [← heq]
    exact he'

/-- Once every call has returned, the cursor offset is the sum of the
requests, or the length of the text if that is less. -/
theorem total_all_done (t : CharPtr) (calls : List (List Nat × Int)) (st : Conc) (c : Nat)
    (hcalls : ∀ r ∈ calls.map Prod.snd, 0 ≤ r ∧ r ≤ INT_MAX)
    (h : CInv t (calls.map Prod.snd) st c) (hd : all_done st) :
    c = min (strlen t) (calls.map Prod.snd).sum.toNat := by
  have hp := served_tids_perm t _ st c h hd
  have hm := hp.map (fun i => ((calls.map Prod.snd).getD i 0).toNat)
  have hs := hm.sum_eq
  rw [List.map_map, h.len_eq, map_getD_range, sum_toNat _ hcalls] at hs
  have ht := h.total
  have hfun : (fun e : Chunk => ((calls.map Prod.snd).getD e.tid 0).toNat) =
      (fun i => ((calls.map Prod.snd).getD i 0).toNat) ∘ Chunk.tid := rfl
  rw [hfun, hs] at ht
  exact ht

/-! ## The properties -/

/-- C1: for an opened device with source text of length `L`, cursor offset
`c` and a `max_len` that is not negative, `string_chr_sync_read` returns
`n = min (max_len, L - c)`, writes exactly the `n` bytes `text[c .. c+n)` at
the start of the caller's buffer (the rest of the buffer is untouched), and
leaves the cursor offset at `c + n`. -/
theorem sync_read_contract (s : StringChardev) (t : CharPtr) (c : Nat)
    (buf : List Nat) (max_len : Int) (h : Opened s t c) (h0 : 0 ≤ max_len)
    (h1 : max_len ≤ INT_MAX) :
    ∃ (n : Nat) (buf' : List Nat) (s' : StringChardev),
      string_chr_sync_read s buf max_len = some ((n : Int), buf', s') ∧
      (n : Int) = min max_len ((strlen t : Int) - (c : Int)) ∧
      buf' = ((cstr t).drop c).take n ++ buf.drop n ∧
      (((cstr t).drop c).take n).length = n ∧
      Opened s' t (c + n) ∧ cursor_offset s' = (c : Int) + (n : Int) := by
  have hc : c ≤ strlen t := h.2.2.2
  refine ⟨min max_len.toNat (strlen t - c), _, _,
    sync_read_nonneg s t c buf max_len h h0 h1, by omega, rfl, ?_, ?_, ?_⟩
  · simp only [List.length_take, List.length_drop, strlen]
    omega
  · exact ⟨h.1, rfl, h.2.2.1, by omega⟩
  · simp only [cursor_offset, h.1]
    omega

/-- C1 at the device on `hello` with the cursor after `he`: a read of 2 bytes
puts `ll` in the buffer and moves the cursor to offset 4. -/
theorem sync_read_contract_witness :
    Opened hello_dev2 hello 2 ∧
    ∃ (n : Nat) (buf' : List Nat) (s' : StringChardev),
      string_chr_sync_read hello_dev2 [1, 2, 3] 2 = some ((n : Int), buf', s') ∧
      (n : Int) = min 2 ((strlen hello : Int) - ((2 : Nat) : Int)) ∧
      buf' = ((cstr hello).drop 2).take n ++ [1, 2, 3].drop n ∧
      (((cstr hello).drop 2).take n).length = n ∧
      Opened s' hello (2 + n) ∧ cursor_offset s' = ((2 : Nat) : Int) + (n : Int) :=
  ⟨by decide, sync_read_contract hello_dev2 hello 2 [1, 2, 3] 2 (by decide) (by decide)
    (by decide)⟩

/-- C4: exhaustion is idempotent. At a device whose cursor offset equals the
length of the source text, `string_chr_sync_read` with any `len` of type
`int` returns (no undefined step, no error value) the count 0, leaves the
caller's buffer as it was, and leaves the device, cursor included, unchanged. -/
theorem sync_read_exhausted (s : StringChardev) (t : CharPtr) (buf : List Nat)
    (len : Int) (h : Opened s t (strlen t)) (h0 : INT_MIN ≤ len) (h1 : len ≤ INT_MAX) :
    string_chr_sync_read s buf len = some (0, buf, s) ∧
      cursor_offset s = (strlen t : Int) := by
  have hI : INT_MAX = 2 ^ 31 - 1 := rfl
  have hJ : INT_MIN = -(2 ^ 31) := rfl
  have key := sync_read_clamped s t (strlen t) buf len 0 h (Nat.zero_le _) (by omega)
    (by
      simp only [Nat.sub_self]
      by_cases hgt : size_t_of_int len > 0
      · rw [if_pos hgt]; rfl
      · rw [if_neg hgt]
        unfold size_t_of_int at hgt
        omega)
  constructor
  · rw [key]
    have hs : ({ s with cur := some ⟨t.mem, t.off + (strlen t + 0)⟩ } : StringChardev) = s := by
      cases s
      simp only [StringChardev.mk.injEq, true_and]
      exact h.2.1.symm
    rw [hs]
    simp
  · simp only [cursor_offset, h.1, h.2.1]
    omega

/-- C4 at the device on `hello` read to the end, asked for 7 bytes. -/
theorem sync_read_exhausted_witness :
    Opened hello_end hello (strlen hello) ∧
    string_chr_sync_read hello_end [9, 9] 7 = some (0, [9, 9], hello_end) ∧
      cursor_offset hello_end = (strlen hello : Int) :=
  ⟨by decide, sync_read_exhausted hello_end hello [9, 9] 7 (by decide) (by decide)
    (by decide)⟩

/-- C10: `string_chr_sync_read` compares the `int` `len`, converted to
`size_t`, with the remaining length `r`. With `r <= INT_MAX`: a negative
`len` converts to a value above `r`, the call returns `r`, copies all `r`
remaining bytes and moves the cursor to the end of the text; and for every
`len` of type `int` the call returns a count between `0` and `r`. -/
theorem sync_read_signed_len (s : StringChardev) (t : CharPtr) (c : Nat)
    (buf : List Nat) (len : Int) (h : Opened s t c)
    (hr : ((strlen t - c : Nat) : Int) ≤ INT_MAX)
    (h0 : INT_MIN ≤ len) (h1 : len ≤ INT_MAX) :
    (len < 0 →
      size_t_of_int len > strlen t - c ∧
      string_chr_sync_read s buf len =
        some (((strlen t - c : Nat) : Int), (cstr t).drop c ++ buf.drop (strlen t - c),
          { s with cur := some ⟨t.mem, t.off + strlen t⟩ }) ∧
      cursor_offset { s with cur := some ⟨t.mem, t.off + strlen t⟩ } = (strlen t : Int)) ∧
    ∃ (n : Int) (buf' : List Nat) (s' : StringChardev),
      string_chr_sync_read s buf len = some (n, buf', s') ∧
      0 ≤ n ∧ n ≤ ((strlen t - c : Nat) : Int) := by
  have hI : INT_MAX = 2 ^ 31 - 1 := rfl
  have hJ : INT_MIN = -(2 ^ 31) := rfl
  constructor
  · intro hneg
    refine ⟨by unfold size_t_of_int; omega, sync_read_neg s t c buf len h hr h0 hneg, ?_⟩
    simp only [cursor_offset, h.1]
    omega
  · by_cases hneg : len < 0
    · exact ⟨_, _, _, sync_read_neg s t c buf len h hr h0 hneg, by omega, by omega⟩
    · exact ⟨_, _, _, sync_read_nonneg s t c buf len h (by omega) h1, by omega, by omega⟩

/-- C10 at the device on `hello` with the cursor after `he`, asked for `-1`
bytes: the 3 bytes `llo` are copied. -/
theorem sync_read_signed_len_witness :
    Opened hello_dev2 hello 2 ∧
    ((-1 : Int) < 0 →
      size_t_of_int (-1) > strlen hello - 2 ∧
      string_chr_sync_read hello_dev2 [7, 7, 7, 7] (-1) =
        some (((strlen hello - 2 : Nat) : Int),
          (cstr hello).drop 2 ++ [7, 7, 7, 7].drop (strlen hello - 2),
          { hello_dev2 with cur := some ⟨hello.mem, hello.off + strlen hello⟩ }) ∧
      cursor_offset { hello_dev2 with cur := some ⟨hello.mem, hello.off + strlen hello⟩ } =
        (strlen hello : Int)) ∧
    ∃ (n : Int) (buf' : List Nat) (s' : StringChardev),
      string_chr_sync_read hello_dev2 [7, 7, 7, 7] (-1) = some (n, buf', s') ∧
      0 ≤ n ∧ n ≤ ((strlen hello - 2 : Nat) : Int) :=
  ⟨by decide, sync_read_signed_len hello_dev2 hello 2 [7, 7, 7, 7] (-1) (by decide)
    (by decide) (by decide) (by decide)⟩

/-- C7: for every device state and every backend that carries a string record,
`qemu_chr_open_string` sets `text` to the record's text and `cur` to the same
pointer (cursor offset 0), sets the backend-opened flag and leaves the error
untouched; when the record has a text, a read of at least its length issued
after the (re-)open returns the whole text. -/
theorem open_string_resets {Common : Type} (chr : StringChardev)
    (backend : ChardevBackend Common) (cds : ChardevString Common)
    (errp : Option String) (hd : backend.u.string.data = some cds) :
    qemu_chr_open_string chr backend errp =
      some (⟨cds.text, cds.text⟩, true, errp) ∧
    cursor_offset ⟨cds.text, cds.text⟩ = 0 ∧
    ∀ t : CharPtr, cds.text = some t → t.off ≤ t.mem.length →
      Opened ⟨cds.text, cds.text⟩ t 0 ∧
      ∀ (buf : List Nat) (max_len : Int), (strlen t : Int) ≤ max_len → max_len ≤ INT_MAX →
        string_chr_sync_read ⟨cds.text, cds.text⟩ buf max_len =
          some ((strlen t : Int), cstr t ++ buf.drop (strlen t),
            ⟨cds.text, some ⟨t.mem, t.off + strlen t⟩⟩) := by
  refine ⟨by simp [qemu_chr_open_string, hd], ?_, ?_⟩
  · cases hc : cds.text <;> simp [cursor_offset]
  · intro t ht hv
    have hop : Opened ⟨cds.text, cds.text⟩ t 0 := ⟨ht, by simp [ht], hv, Nat.zero_le _⟩
    refine ⟨hop, ?_⟩
    intro buf max_len hL hM
    have key := sync_read_nonneg _ t 0 buf max_len hop (by omega) hM
    have e : min max_len.toNat (strlen t - 0) = strlen t := by omega
    rw [key, e]
    simp [strlen]

/-- C7 at the exhausted device on `hello`, re-opened on the `hello` backend. -/
theorem open_string_resets_witness :
    hello_backend.u.string.data = some hello_cds ∧
    (qemu_chr_open_string hello_end hello_backend none =
      some (⟨hello_cds.text, hello_cds.text⟩, true, none) ∧
    cursor_offset ⟨hello_cds.text, hello_cds.text⟩ = 0 ∧
    ∀ t : CharPtr, hello_cds.text = some t → t.off ≤ t.mem.length →
      Opened ⟨hello_cds.text, hello_cds.text⟩ t 0 ∧
      ∀ (buf : List Nat) (max_len : Int), (strlen t : Int) ≤ max_len → max_len ≤ INT_MAX →
        string_chr_sync_read ⟨hello_cds.text, hello_cds.text⟩ buf max_len =
          some ((strlen t : Int), cstr t ++ buf.drop (strlen t),
            ⟨hello_cds.text, some ⟨t.mem, t.off + strlen t⟩⟩)) ∧
    string_chr_sync_read hello_dev [0, 0, 0, 0, 0, 0] 6 =
      some (5, [104, 101, 108, 108, 111, 0], hello_end) :=
  ⟨rfl, open_string_resets hello_end hello_backend hello_cds none rfl, by decide⟩

/-- C2: right after open on a text of length `L`, any finite list of reads of
sizes `n1, n2, ...` (none negative) returns chunks whose concatenation is the
first `min (L, sum ni)` bytes of the text; in particular a read of at least
`L` bytes returns the whole text and the read after it returns no byte. -/
theorem read_seq_after_open {Common : Type} (chr0 : StringChardev)
    (backend : ChardevBackend Common) (cds : ChardevString Common) (t : CharPtr)
    (errp : Option String) (sizes : List Int)
    (hd : backend.u.string.data = some cds) (ht : cds.text = some t)
    (hv : t.off ≤ t.mem.length) (hs : ∀ n ∈ sizes, 0 ≤ n ∧ n ≤ INT_MAX) :
    ∃ chr : StringChardev,
      qemu_chr_open_string chr0 backend errp = some (chr, true, errp) ∧
      (∃ (outs : List (List Nat)) (last : StringChardev),
        read_seq chr sizes = some (outs, last) ∧
        outs.flatten = (cstr t).take (min (strlen t) sizes.sum.toNat) ∧
        outs.flatten.length = min (strlen t) sizes.sum.toNat) ∧
      ∀ n m : Int, (strlen t : Int) ≤ n → n ≤ INT_MAX → 0 ≤ m → m ≤ INT_MAX →
        ∃ last : StringChardev, read_seq chr [n, m] = some ([cstr t, []], last) := by
  have hop : Opened ⟨cds.text, cds.text⟩ t 0 := ⟨ht, by simp [ht], hv, Nat.zero_le _⟩
  refine ⟨⟨cds.text, cds.text⟩, by simp [qemu_chr_open_string, hd], ?_, ?_⟩
  · obtain ⟨outs, last, hrun, hflat⟩ := read_seq_opened t sizes _ 0 hop hs
    have e : outs.flatten = (cstr t).take (min (strlen t) sizes.sum.toNat) := by
      rw [hflat, List.drop_zero]
      by_cases hle : sizes.sum.toNat ≤ strlen t
      · rw [Nat.min_eq_right hle]
      · rw [Nat.min_eq_left (by omega), List.take_of_length_le (by simp only [strlen] at hle; omega),
          List.take_of_length_le (by simp [strlen])]
    refine ⟨outs, last, hrun, e, ?_⟩
    rw [e, List.length_take]
    simp only [strlen]
    omega
  · intro n m hn hn1 hm hm1
    have k1 := sync_read_nonneg _ t 0 (List.replicate n.toNat 0) n hop (by omega) hn1
    have e : min n.toNat (strlen t - 0) = strlen t := by omega
    rw [e] at k1
    have hop2 : Opened ⟨cds.text, some ⟨t.mem, t.off + (0 + strlen t)⟩⟩ t (0 + strlen t) :=
      ⟨ht, rfl, hv, by omega⟩
    have k2 := sync_read_nonneg _ t (0 + strlen t) (List.replicate m.toNat 0) m hop2 hm hm1
    have e2 : min m.toNat (strlen t - (0 + strlen t)) = 0 := by omega
    rw [e2] at k2
    refine ⟨⟨cds.text, some ⟨t.mem, t.off + (0 + strlen t + 0)⟩⟩, ?_⟩
    simp only [read_seq, k1, k2]
    simp [strlen]

/-- C2 at the text `hello`: the reads 3, 10, 5 after open give `hel`, `lo`
and then no byte. -/
theorem read_seq_after_open_witness :
    (hello_backend.u.string.data = some hello_cds ∧ hello_cds.text = some hello ∧
      hello.off ≤ hello.mem.length ∧ ∀ n ∈ [(3 : Int), 10, 5], 0 ≤ n ∧ n ≤ INT_MAX) ∧
    (∃ chr : StringChardev,
      qemu_chr_open_string hello_end hello_backend none = some (chr, true, none) ∧
      (∃ (outs : List (List Nat)) (last : StringChardev),
        read_seq chr [3, 10, 5] = some (outs, last) ∧
        outs.flatten = (cstr hello).take (min (strlen hello) [(3 : Int), 10, 5].sum.toNat) ∧
        outs.flatten.length = min (strlen hello) [(3 : Int), 10, 5].sum.toNat) ∧
      ∀ n m : Int, (strlen hello : Int) ≤ n → n ≤ INT_MAX → 0 ≤ m → m ≤ INT_MAX →
        ∃ last : StringChardev, read_seq chr [n, m] = some ([cstr hello, []], last)) ∧
    qemu_chr_open_string hello_end hello_backend none = some (hello_dev, true, none) ∧
    read_seq hello_dev [3, 10, 5] =
      some ([[104, 101, 108], [108, 111], []], hello_end) :=
  ⟨⟨rfl, rfl, by decide, by decide⟩,
    read_seq_after_open hello_end hello_backend hello_cds hello none [3, 10, 5] rfl rfl
      (by decide) (by decide),
    by decide, by decide⟩

/-- C3: in every state reachable from open by calls of `Write` and of
`SyncRead` with `max_len >= 0`, the source text is the text set at open and
the cursor offset lies between 0 and the length of the text; every further
such call returns and leaves a cursor offset that is at least the one before
the call. -/
theorem reachable_invariant {σ Common : Type}
    (write : σ → Nat → List Nat → Nat → Int × σ)
    (fprintf : σ → String → String → List Int → σ) (w0 : σ) (chr0 : StringChardev)
    (backend : ChardevBackend Common) (cds : ChardevString Common) (t : CharPtr)
    (errp : Option String) (hd : backend.u.string.data = some cds)
    (ht : cds.text = some t) (hv : t.off ≤ t.mem.length) :
    ∃ chr : StringChardev,
      qemu_chr_open_string chr0 backend errp = some (chr, true, errp) ∧
      ∀ st : σ × StringChardev, Reachable write fprintf (w0, chr) st →
        st.2.text = some t ∧ 0 ≤ cursor_offset st.2 ∧
        cursor_offset st.2 ≤ (strlen t : Int) ∧
        ∀ call : Call, call.ok →
          ∃ st' : σ × StringChardev, step write fprintf st call = some st' ∧
            st'.2.text = some t ∧ cursor_offset st.2 ≤ cursor_offset st'.2 := by
  have hop : Opened ⟨cds.text, cds.text⟩ t 0 := ⟨ht, by simp [ht], hv, Nat.zero_le _⟩
  refine ⟨⟨cds.text, cds.text⟩, by simp [qemu_chr_open_string, hd], ?_⟩
  intro st hr
  obtain ⟨c, hc⟩ := reachable_opened write fprintf (w0, ⟨cds.text, cds.text⟩) st t hop hr
  have hle : c ≤ strlen t := hc.2.2.2
  refine ⟨hc.1, ?_, ?_, ?_⟩
  · rw [cursor_offset_opened _ t c hc]; omega
  · rw [cursor_offset_opened _ t c hc]; omega
  · intro call hok
    obtain ⟨st', c', hs, hop', hmono⟩ := step_opened write fprintf st t c call hc hok
    refine ⟨st', hs, hop'.1, ?_⟩
    rw [cursor_offset_opened _ t c hc, cursor_offset_opened _ t c' hop']
    omega

/-- C3 at the device opened on `hello`, with the sample sink. -/
theorem reachable_invariant_witness :
    (hello_backend.u.string.data = some hello_cds ∧ hello_cds.text = some hello ∧
      hello.off ≤ hello.mem.length) ∧
    (∃ chr : StringChardev,
      qemu_chr_open_string hello_end hello_backend none = some (chr, true, none) ∧
      ∀ st : List SinkEvent × StringChardev,
        Reachable sample_write sample_fprintf ([], chr) st →
        st.2.text = some hello ∧ 0 ≤ cursor_offset st.2 ∧
        cursor_offset st.2 ≤ (strlen hello : Int) ∧
        ∀ call : Call, call.ok →
          ∃ st' : List SinkEvent × StringChardev,
            step sample_write sample_fprintf st call = some st' ∧
            st'.2.text = some hello ∧ cursor_offset st.2 ≤ cursor_offset st'.2) ∧
    run sample_write sample_fprintf ([], hello_dev)
        [Call.SyncRead [0, 0, 0] 3, Call.Write ping 4, Call.SyncRead [0, 0, 0] 1] =
      some ([SinkEvent.trace "string_chr_sync_read" [3], SinkEvent.data [112, 105, 110],
          SinkEvent.trace "string_chr_write" [4, 3],
          SinkEvent.trace "string_chr_sync_read" [1]],
        ⟨some hello, some ⟨hello.mem, 4⟩⟩) :=
  ⟨⟨rfl, rfl, by decide⟩,
    reachable_invariant sample_write sample_fprintf [] hello_end hello_backend hello_cds hello
      none rfl rfl
      (by decide),
    by decide⟩

/-- C5: `qemu_chr_parse_string` sets an error exactly when the option set has
no `text`; when `text` is there, no error is set and the record of the
descriptor holds a text equal to the option's value, has `has_outputdev`
true exactly when `outputdev` is there, with an `outputdev` equal to that
option's value, and has `has_outputdev` false and no `outputdev` otherwise. -/
theorem parse_string_spec {QemuOpts Common : Type} (h : Host QemuOpts Common)
    (opts : QemuOpts) (backend : ChardevBackend Common) :
    ((qemu_chr_parse_string h opts backend).2 ≠ none ↔
      h.qemu_opt_get opts "text" = none) ∧
    ∀ v : CharPtr, h.qemu_opt_get opts "text" = some v →
      (qemu_chr_parse_string h opts backend).2 = none ∧
      ∃ cds : ChardevString Common,
        (qemu_chr_parse_string h opts backend).1.u.string.data = some cds ∧
        (∃ p : CharPtr, cds.text = some p ∧ cstr p = cstr v) ∧
        (cds.has_outputdev = true ↔ h.qemu_opt_get opts "outputdev" ≠ none) ∧
        (∀ o : CharPtr, h.qemu_opt_get opts "outputdev" = some o →
          ∃ q : CharPtr, cds.outputdev = some q ∧ cstr q = cstr o) ∧
        (h.qemu_opt_get opts "outputdev" = none →
          cds.has_outputdev = false ∧ cds.outputdev = none) := by
  constructor
  · cases ht : h.qemu_opt_get opts "text" with
    | none => simp [qemu_chr_parse_string, ht]
    | some v =>
      cases ho : h.qemu_opt_get opts "outputdev" <;> simp [qemu_chr_parse_string, ht, ho]
  · intro v ht
    cases ho : h.qemu_opt_get opts "outputdev" with
    | none => simp [qemu_chr_parse_string, ht, ho, cstr_strdup]
    | some o => simp [qemu_chr_parse_string, ht, ho, cstr_strdup]

/-- C5 at the sample option sets: with `text` and `outputdev`, with `text`
only, and without `text`. -/
theorem parse_string_spec_witness :
    sample_host.qemu_opt_get opts_both "text" = some hello ∧
    (((qemu_chr_parse_string sample_host opts_both fresh_backend).2 ≠ none ↔
      sample_host.qemu_opt_get opts_both "text" = none) ∧
    ∀ v : CharPtr, sample_host.qemu_opt_get opts_both "text" = some v →
      (qemu_chr_parse_string sample_host opts_both fresh_backend).2 = none ∧
      ∃ cds : ChardevString Unit,
        (qemu_chr_parse_string sample_host opts_both fresh_backend).1.u.string.data =
          some cds ∧
        (∃ p : CharPtr, cds.text = some p ∧ cstr p = cstr v) ∧
        (cds.has_outputdev = true ↔ sample_host.qemu_opt_get opts_both "outputdev" ≠ none) ∧
        (∀ o : CharPtr, sample_host.qemu_opt_get opts_both "outputdev" = some o →
          ∃ q : CharPtr, cds.outputdev = some q ∧ cstr q = cstr o) ∧
        (sample_host.qemu_opt_get opts_both "outputdev" = none →
          cds.has_outputdev = false ∧ cds.outputdev = none)) ∧
    qemu_chr_parse_string sample_host opts_both fresh_backend =
      (⟨ChardevBackendKind.CHARDEV_BACKEND_KIND_STRING,
        ⟨⟨some ⟨(), some hello, true, some out0⟩⟩⟩⟩, none) ∧
    qemu_chr_parse_string sample_host opts_text fresh_backend = (hello_backend, none) :=
  ⟨by decide, parse_string_spec sample_host opts_both fresh_backend, by decide, by decide⟩

/-- C6: for a `len` that is not negative and a sink whose reported count fits
an `int` (as every count between `-1` and `len` does), `string_chr_write`
hands the sink the caller's bytes and `len` in one `write` request, returns
the count reported for it as it is, short or negative included (so `len`
when the sink accepts all bytes), and returns the device unchanged. The sink
is left in the state that this one request and the trace line printed after
it put it in: there is no second `write` request. -/
theorem write_passthrough {σ : Type} (write : σ → Nat → List Nat → Nat → Int × σ)
    (fprintf : σ → String → String → List Int → σ)
    (w : σ) (chr : StringChardev) (buf : List Nat) (len : Int)
    (h0 : 0 ≤ len) (h1 : len ≤ INT_MAX)
    (hs0 : INT_MIN ≤ (write w 2 buf len.toNat).1)
    (hs1 : (write w 2 buf len.toNat).1 ≤ INT_MAX) :
    string_chr_write write fprintf w chr buf len =
      ((write w 2 buf len.toNat).1,
        fprintf (write w 2 buf len.toNat).2 "%s: %d gives %d\n" "string_chr_write"
          [len, (write w 2 buf len.toNat).1],
        chr) ∧
    ((write w 2 buf len.toNat).1 = len →
      (string_chr_write write fprintf w chr buf len).1 = len) ∧
    (string_chr_write write fprintf w chr buf len).2.2.text = chr.text ∧
    (string_chr_write write fprintf w chr buf len).2.2.cur = chr.cur ∧
    cursor_offset (string_chr_write write fprintf w chr buf len).2.2 = cursor_offset chr := by
  have hI : INT_MAX = 2 ^ 31 - 1 := rfl
  have hs : size_t_of_int len = len.toNat := by unfold size_t_of_int; omega
  have e : string_chr_write write fprintf w chr buf len =
      ((write w 2 buf len.toNat).1,
        fprintf (write w 2 buf len.toNat).2 "%s: %d gives %d\n" "string_chr_write"
          [len, (write w 2 buf len.toNat).1],
        chr) := by
    simp only [string_chr_write, hs, int_of_ssize_t_small _ hs0 hs1]
  refine ⟨e, ?_, ?_, ?_, ?_⟩
  · intro hall; rw [e]; exact hall
  · rw [e]
  · rw [e]
  · rw [e]

/-- C6 at `ping` written to the sample sink, which takes 3 of the 4 bytes:
the call returns 3, the sink has received one `write` request (`pin`) and
the trace line after it, the device is as before. -/
theorem write_passthrough_witness :
    ((0 : Int) ≤ 4 ∧ (4 : Int) ≤ INT_MAX ∧
      INT_MIN ≤ (sample_write [] 2 ping (4 : Int).toNat).1 ∧
      (sample_write [] 2 ping (4 : Int).toNat).1 ≤ INT_MAX) ∧
    (string_chr_write sample_write sample_fprintf [] hello_dev2 ping 4 =
      ((sample_write [] 2 ping (4 : Int).toNat).1,
        sample_fprintf (sample_write [] 2 ping (4 : Int).toNat).2 "%s: %d gives %d\n"
          "string_chr_write" [4, (sample_write [] 2 ping (4 : Int).toNat).1],
        hello_dev2) ∧
    ((sample_write [] 2 ping (4 : Int).toNat).1 = 4 →
      (string_chr_write sample_write sample_fprintf [] hello_dev2 ping 4).1 = 4) ∧
    (string_chr_write sample_write sample_fprintf [] hello_dev2 ping 4).2.2.text =
      hello_dev2.text ∧
    (string_chr_write sample_write sample_fprintf [] hello_dev2 ping 4).2.2.cur =
      hello_dev2.cur ∧
    cursor_offset (string_chr_write sample_write sample_fprintf [] hello_dev2 ping 4).2.2 =
      cursor_offset hello_dev2) ∧
    string_chr_write sample_write sample_fprintf [] hello_dev2 ping 4 =
      (3, [SinkEvent.data [112, 105, 110], SinkEvent.trace "string_chr_write" [4, 3]],
        hello_dev2) :=
  ⟨⟨by decide, by decide, by decide, by decide⟩,
    write_passthrough sample_write sample_fprintf [] hello_dev2 ping 4 (by decide) (by decide)
      (by decide) (by decide),
    by decide⟩

/-- C8, as stated, fails: on an option set without `text` the descriptor
after `qemu_chr_parse_string` is not the descriptor that was passed in; its
kind is set and a record is attached. -/
theorem parse_string_failure_changes_backend :
    sample_host.qemu_opt_get opts_none "text" = none ∧
    (qemu_chr_parse_string sample_host opts_none fresh_backend).1 ≠ fresh_backend ∧
    (qemu_chr_parse_string sample_host opts_none fresh_backend).1.type =
      ChardevBackendKind.CHARDEV_BACKEND_KIND_STRING ∧
    (qemu_chr_parse_string sample_host opts_none fresh_backend).1.u.string.data =
      some ⟨(), none, false, none⟩ := by
  decide

/-- C8, amended: on an option set without `text`, `qemu_chr_parse_string`
sets the error and leaves the descriptor with the string kind and an attached
record that has no text, `has_outputdev` false and no `outputdev` (its common
part is what `qemu_chr_parse_common` made of the zeroed one); whatever the
descriptor held in these members before is overwritten. -/
theorem parse_string_no_text {QemuOpts Common : Type} (h : Host QemuOpts Common)
    (opts : QemuOpts) (backend : ChardevBackend Common)
    (ht : h.qemu_opt_get opts "text" = none) :
    qemu_chr_parse_string h opts backend =
      (⟨ChardevBackendKind.CHARDEV_BACKEND_KIND_STRING,
        ⟨⟨some ⟨h.qemu_chr_parse_common opts h.zero, none, false, none⟩⟩⟩⟩,
        some "chardev: No text given for string chardev") := by
  simp [qemu_chr_parse_string, ht]

/-- C8, amended, at the sample option set without `text`. -/
theorem parse_string_no_text_witness :
    sample_host.qemu_opt_get opts_none "text" = none ∧
    qemu_chr_parse_string sample_host opts_none fresh_backend =
      (⟨ChardevBackendKind.CHARDEV_BACKEND_KIND_STRING,
        ⟨⟨some ⟨sample_host.qemu_chr_parse_common opts_none sample_host.zero,
          none, false, none⟩⟩⟩⟩,
        some "chardev: No text given for string chardev") :=
  ⟨by decide, parse_string_no_text sample_host opts_none fresh_backend (by decide)⟩

end CharString
